import Mathlib

/-!
Shallow embedding of the PIN-addressed file relay in `src/app.py`.

State is made explicit: the persisted metadata document (a Python dict,
PIN string → record) and the blob directory are modelled as association
lists with the unique-key discipline of a dict; `random.randint` draws
are passed as an explicit list of draws; `datetime.now()` is an explicit
`Int` of seconds.  Functions keep the source's names.
-/

namespace FileTran

/-- File contents: a list of byte values (`uploaded_file.getvalue()`). -/
abbrev Bytes := List Nat

/-- One metadata record, the dict built at `app.py` lines 81-87. -/
structure FileRecord where
  filename : String
  filepath : String
  size : Nat
  upload_time : Int
  type : String
  deriving DecidableEq, Repr

/-- The persisted metadata document (`file_metadata.json`): a Python dict
from PIN string to record, modelled as an association list whose keys are
kept unique by the dict operations below. -/
abbrev Metadata := List (String × FileRecord)

/-- The storage directory seen as a mapping from path string to contents. -/
abbrev FS := List (String × Bytes)

/-- Association-list lookup: Python `m.get(k)` / `k in m`. -/
def alGet {α : Type} (m : List (String × α)) (k : String) : Option α :=
  match m with
  | [] => none
  | (k', v) :: rest => if k' = k then some v else alGet rest k

/-- Association-list store: Python `m[k] = v` (replace in place, else append). -/
def alInsert {α : Type} (m : List (String × α)) (k : String) (v : α) :
    List (String × α) :=
  match m with
  | [] => [(k, v)]
  | (k', v') :: rest =>
      if k' = k then (k, v) :: rest else (k', v') :: alInsert rest k v

/-- Association-list delete: Python `del m[k]` (on a unique-keyed dict this
removes every entry carrying the key). -/
def alRemove {α : Type} (m : List (String × α)) (k : String) :
    List (String × α) :=
  m.filter (fun e => e.1 != k)

/-- Reading a blob: `open(path, "rb").read()`, `none` when the path is absent
(`os.path.exists` false). -/
def fsRead (fs : FS) (p : String) : Option Bytes := alGet fs p

/-- Writing a blob: `open(path, "wb").write(bytes)`. -/
def fsWrite (fs : FS) (p : String) (b : Bytes) : FS := alInsert fs p b

/-- `os.remove(path)` guarded by `os.path.exists` with `OSError` ignored:
net effect is remove-if-present, idempotent. -/
def fsRemove (fs : FS) (p : String) : FS := alRemove fs p

/-- `STORAGE_DIR = os.path.join(tempfile.gettempdir(), "streamlit_file_transfer")`,
with `gettempdir()` modelled as `/tmp`. -/
def STORAGE_DIR : String := "/tmp/streamlit_file_transfer"

/-- Decimal digits of `n`, least significant first; `fuel`-structured so the
kernel can evaluate it (`fuel ≥ n` suffices). -/
def decDigitsAux (fuel n : Nat) : List Nat :=
  match fuel, n with
  | _, 0 => []
  | 0, _ => []
  | fuel + 1, n + 1 => (n + 1) % 10 :: decDigitsAux fuel ((n + 1) / 10)

/-- The f-string `f"{n}"`: standard decimal rendering of a natural number. -/
def natToString (n : Nat) : String :=
  if n = 0 then "0"
  else String.mk (((decDigitsAux n n).reverse).map Nat.digitChar)

/-- `generate_pin` (app.py 60-66): the metadata is loaded once, then
`random.randint(1000, 9999)` draws are tried until one is not a key of the
dict.  The unbounded `while True` is embedded by passing the stream of
draws explicitly; an empty remainder means the loop is still running. -/
def generate_pin (store : Metadata) : List Nat → Option String
  | [] => none
  | d :: rest =>
      if (alGet store (natToString d)).isNone then some (natToString d)
      else generate_pin store rest

/-- Whether a POSIX path string is absolute (starts with `/`). -/
def isAbsolute (s : String) : Bool :=
  match s.data with
  | [] => false
  | c :: _ => c = '/'

/-- `os.path.join(a, b)`: `b` wins when absolute, else concatenation with
a separator. -/
def ospJoin (a b : String) : String :=
  if isAbsolute b then b else a ++ "/" ++ b

/-- The storage path of app.py line 72:
`os.path.join(STORAGE_DIR, f"{pin}_{uploaded_file.name}")`. -/
def pinFilePath (pin name : String) : String :=
  ospJoin STORAGE_DIR (pin ++ "_" ++ name)

/-- Outcome of the `json.dump` I/O inside `save_file_metadata`. -/
inductive SaveOutcome
  | ok
  | ioError
  deriving DecidableEq, Repr

/-- `save_file_metadata` (app.py 43-58): dumps the dict to the metadata
file.  Every exception is caught inside the function (`st.error` only), so
it returns normally in both cases; on an I/O error the persisted document
keeps its previous contents and the caller is told nothing. -/
def save_file_metadata (persisted : Metadata) (m : Metadata)
    (io' : SaveOutcome) : Metadata :=
  match io' with
  | .ok => m
  | .ioError => persisted

/-- `save_file_with_pin` (app.py 68-94): write the blob at the pin-prefixed
path, reload the metadata, add the record, save, and return the path.
Returns the new blob directory, the new persisted metadata document, and
the function's result (`Except` models the re-raised exception of line 94,
which only blob-write failures reach - not metadata-save failures). -/
def save_file_with_pin (fs : FS) (persisted : Metadata) (pin name : String)
    (content : Bytes) (size : Nat) (ftype : String) (now : Int)
    (io' : SaveOutcome) : FS × Metadata × Except String String :=
  let path := pinFilePath pin name
  let fs' := fsWrite fs path content
  let metadata := persisted
  let metadata' := alInsert metadata pin
    ⟨name, path, size, now, ftype⟩
  let persisted' := save_file_metadata persisted metadata' io'
  (fs', persisted', Except.ok path)

/-- `get_file_by_pin` (app.py 96-99): load the metadata and `get(pin)`. -/
def get_file_by_pin (store : Metadata) (pin : String) : Option FileRecord :=
  alGet store pin

/-- Result of the download tab's PIN verification (app.py 215-264). -/
inductive FetchResult
  | served (data : Bytes) (filename : String) (ftype : String)
  | notFoundOnDisk
  | invalidPin
  deriving DecidableEq, Repr

/-- The download tab, tab2 (app.py 215-264): look the PIN up; if the record
exists and its blob exists, read and serve the bytes; if the blob is
missing, report not-found-on-disk and evict the record (reload, `del`,
save); if the PIN is unknown, report invalid-or-expired.  No clock is
consulted: the code computes a time-remaining figure for display only. -/
def fetch_by_pin (store : Metadata) (fs : FS) (pin : String) :
    FetchResult × Metadata :=
  match get_file_by_pin store pin with
  | some info =>
      match fsRead fs info.filepath with
      | some data => (.served data info.filename info.type, store)
      | none => (.notFoundOnDisk, alRemove store pin)
  | none => (.invalidPin, store)

/-- The reaper's test (app.py 109):
`current_time - file_info['upload_time'] > timedelta(hours=24)`, in seconds. -/
def expired (now : Int) (info : FileRecord) : Bool :=
  now - info.upload_time > 86400

/-- `cleanup_old_files` (app.py 101-129): collect the PINs of records
strictly older than 24 hours, best-effort delete each such record's blob,
`del` the collected PINs from the dict, save once, and return the count. -/
def cleanup_old_files (store : Metadata) (fs : FS) (now : Int) :
    Nat × Metadata × FS :=
  let pinsToRemove := (store.filter (fun e => expired now e.2)).map (fun e => e.1)
  let fs' := store.foldl
    (fun acc e => if expired now e.2 then fsRemove acc e.2.filepath else acc) fs
  let store' := pinsToRemove.foldl (fun acc p => alRemove acc p) store
  (pinsToRemove.length, store', fs')

/-! ### Lexical path resolution

To reason about directory traversal we resolve a path string the way the
operating system resolves it lexically: split on `/`, drop empty and `.`
components, and let `..` pop the last component. -/

/-- Split a character list at a separator. -/
def splitCharsAux (sep : Char) : List Char → List Char → List (List Char)
  | [], acc => [acc.reverse]
  | c :: rest, acc =>
      if c = sep then acc.reverse :: splitCharsAux sep rest []
      else splitCharsAux sep rest (c :: acc)

/-- The `/`-separated components of a path string. -/
def pathComponents (s : String) : List String :=
  (splitCharsAux '/' s.data []).map (fun cs => String.mk cs)

/-- Resolve `.`, `..` and empty components. -/
def normalizeComps (comps : List String) : List String :=
  comps.foldl (fun acc c =>
    if c = "" then acc
    else if c = "." then acc
    else if c = ".." then acc.dropLast
    else acc ++ [c]) []

/-- The component list a path string finally denotes. -/
def resolvePath (s : String) : List String := normalizeComps (pathComponents s)

/-- Whether the file named by `p` lies inside the directory `root`. -/
def withinRoot (root p : String) : Bool :=
  (resolvePath root).isPrefixOf (resolvePath p)

/-! ### Concrete scenario states used by witnesses and counterexamples -/

/-- A fixed record for populating concrete stores. -/
def sampleRec : FileRecord :=
  ⟨"hello.txt", pinFilePath "1234" "hello.txt", 2, 0, "text/plain"⟩

/-- A store holding `sampleRec` under PIN `1234`, uploaded at time 0. -/
def c2store : Metadata := [("1234", sampleRec)]

/-- A blob directory holding the bytes of `sampleRec`. -/
def c2fs : FS := [(pinFilePath "1234" "hello.txt", [104, 105])]

/-- A store in which every drawable PIN `1000`-`9999` is already a key. -/
def fullStore : Metadata :=
  (List.range 9000).map (fun i => (natToString (1000 + i), sampleRec))

/-- `generate_pin` never returns on `store`, whatever fair draw sequence
`random.randint(1000, 9999)` produces: the embedded loop has consumed every
draw without returning, for draw lists of every length. -/
def loopsForever (store : Metadata) : Prop :=
  ∀ draws : List Nat, (∀ d ∈ draws, 1000 ≤ d ∧ d ≤ 9999) →
    generate_pin store draws = none

/-- The racing interleaving: starting from an empty store, uploader A and
uploader B both run `generate_pin` (each drawing 1000) before either runs
`save_file_with_pin`; then A saves, then B saves. -/
def racePinA : Option String := generate_pin [] [1000]

/-- Uploader B's allocation, issued against the same (still empty) store
because A has not yet saved. -/
def racePinB : Option String := generate_pin [] [1000]

/-- The store after A's save commits. -/
def raceStore1 : Metadata :=
  (save_file_with_pin [] [] "1000" "a.txt" [1] 1 "text/plain" 0 .ok).2.1

/-- The store after B's save commits on top of A's. -/
def raceStore2 : Metadata :=
  (save_file_with_pin [] raceStore1 "1000" "b.txt" [2] 1 "text/plain" 0 .ok).2.1

/-- A record whose blob will be absent from the blob directory. -/
def c6rec : FileRecord :=
  ⟨"gone.txt", pinFilePath "5678" "gone.txt", 3, 0, "text/plain"⟩

/-- Store for the orphaned-record scenario: a record whose blob is absent. -/
def c6store : Metadata := [("5678", c6rec)]

/-- Store for the allocator-range witness: PIN `1000` is already taken. -/
def c9store : Metadata := [("1000", sampleRec)]

/-- Store for the reaper witnesses: one fresh record and one expired one. -/
def c8store : Metadata :=
  [("1234", sampleRec),
   ("2222", ⟨"old.bin", pinFilePath "2222" "old.bin", 1, -100000, "application/octet-stream"⟩)]

/-- Blob directory matching `c8store`. -/
def c8fs : FS :=
  [(pinFilePath "1234" "hello.txt", [104, 105]),
   (pinFilePath "2222" "old.bin", [7])]

/-! ### Association-list lemmas -/

theorem alGet_insert_self {α : Type} (m : List (String × α)) (k : String)
    (v : α) : alGet (alInsert m k v) k = some v := by
  induction m with
  | nil => simp [alInsert, alGet]
  | cons e rest ih =>
      obtain ⟨k', v'⟩ := e
      by_cases h : k' = k <;> simp [alInsert, alGet, h, ih]

theorem alGet_some_mem {α : Type} {m : List (String × α)} {k : String}
    {v : α} (h : alGet m k = some v) : (k, v) ∈ m := by
  induction m with
  | nil => simp [alGet] at h
  | cons e rest ih =>
      obtain ⟨k', v'⟩ := e
      by_cases hk : k' = k
      · subst hk
        simp [alGet] at h
        simp [h]
      · simp [alGet, hk] at h
        exact List.mem_cons_of_mem _ (ih h)

theorem alGet_eq_none_of {α : Type} {m : List (String × α)} {k : String}
    (h : ∀ e ∈ m, e.1 ≠ k) : alGet m k = none := by
  induction m with
  | nil => simp [alGet]
  | cons e rest ih =>
      obtain ⟨k', v'⟩ := e
      have hk : k' ≠ k := h (k', v') (List.mem_cons_self _ _)
      simp [alGet, hk]
      exact ih (fun e he => h e (List.mem_cons_of_mem _ he))

theorem forall_ne_of_alGet_eq_none {α : Type} {m : List (String × α)}
    {k : String} (h : alGet m k = none) : ∀ e ∈ m, e.1 ≠ k := by
  induction m with
  | nil => simp
  | cons e rest ih =>
      obtain ⟨k', v'⟩ := e
      by_cases hk : k' = k
      · simp [alGet, hk] at h
      · simp [alGet, hk] at h
        intro e he
        rcases List.mem_cons.mp he with h1 | h1
        · subst h1; exact hk
        · exact ih h e h1

theorem alGet_remove_self {α : Type} (m : List (String × α)) (k : String) :
    alGet (alRemove m k) k = none := by
  apply alGet_eq_none_of
  intro e he
  have := List.of_mem_filter he
  simpa using this

theorem alGet_remove_ne {α : Type} (m : List (String × α)) (k p : String)
    (h : p ≠ k) : alGet (alRemove m k) p = alGet m p := by
  induction m with
  | nil => simp [alRemove, alGet]
  | cons e rest ih =>
      obtain ⟨k', v'⟩ := e
      by_cases hk : k' = k
      · subst hk
        have hp : ¬ (k' = p) := fun hc => h hc.symm
        simp only [alRemove, List.filter_cons, bne_self_eq_false,
          if_neg Bool.false_ne_true, alGet, if_neg hp]
        simpa [alRemove] using ih
      · simp only [alRemove, List.filter_cons, if_pos (bne_iff_ne.mpr hk),
          alGet]
        by_cases hp : k' = p
        · simp [hp]
        · simpa [hp, alRemove] using ih

theorem alGet_nodup_mem {α : Type} {m : List (String × α)} {k : String}
    {v : α} (hnd : (m.map Prod.fst).Nodup) (hm : (k, v) ∈ m) :
    alGet m k = some v := by
  induction m with
  | nil => simp at hm
  | cons e rest ih =>
      obtain ⟨k', v'⟩ := e
      rcases List.mem_cons.mp hm with h1 | h1
      · obtain ⟨hk, hv⟩ := Prod.mk.injEq .. ▸ h1
        simp [alGet, hk.symm, hv]
      · have hk : k' ≠ k := by
          intro hc
          subst hc
          have : k' ∈ rest.map Prod.fst :=
            List.mem_map.mpr ⟨(k', v), h1, rfl⟩
          exact (List.nodup_cons.mp hnd).1 this
        simp [alGet, hk]
        exact ih (List.nodup_cons.mp hnd).2 h1

theorem alGet_filter_none {α : Type} {m : List (String × α)}
    {q : String × α → Bool} {k : String}
    (h : ∀ e ∈ m, e.1 = k → q e = false) :
    alGet (m.filter q) k = none := by
  apply alGet_eq_none_of
  intro e he hc
  have h1 := List.mem_filter.mp he
  exact absurd h1.2 (by simp [h e h1.1 hc])

theorem contains_eq_true_iff {l : List String} {a : String} :
    l.contains a = true ↔ a ∈ l := by
  simp [List.contains, List.elem_iff]

theorem alRemove_foldl {α : Type} (l : List String)
    (m : List (String × α)) :
    l.foldl (fun acc p => alRemove acc p) m
      = m.filter (fun e => !(l.contains e.1)) := by
  induction l generalizing m with
  | nil => simp
  | cons p ps ih =>
      rw [List.foldl_cons, ih, alRemove, List.filter_filter]
      apply List.filter_congr
      intro e _
      by_cases h : e.1 = p <;> simp [h]

/-! ### Reaper blob-deletion fold lemmas -/

theorem foldl_reap_preserves_none (now : Int) :
    ∀ (t : Metadata) (fs : FS) (p : String), fsRead fs p = none →
      fsRead (t.foldl (fun acc e =>
        if expired now e.2 then fsRemove acc e.2.filepath else acc) fs) p
        = none := by
  intro t
  induction t with
  | nil => intro fs p h; simpa using h
  | cons e rest ih =>
      intro fs p h
      rw [List.foldl_cons]
      apply ih
      by_cases hex : expired now e.2
      · rw [if_pos hex]
        apply alGet_eq_none_of
        intro e' he'
        exact forall_ne_of_alGet_eq_none h e' (List.mem_of_mem_filter he')
      · simpa [hex] using h

theorem foldl_reap_frame (now : Int) :
    ∀ (t : Metadata) (fs : FS) (p : String),
      (∀ e ∈ t, expired now e.2 = true → e.2.filepath ≠ p) →
      fsRead (t.foldl (fun acc e =>
        if expired now e.2 then fsRemove acc e.2.filepath else acc) fs) p
        = fsRead fs p := by
  intro t
  induction t with
  | nil => intro fs p _; rfl
  | cons e rest ih =>
      intro fs p h
      rw [List.foldl_cons]
      rw [ih _ p (fun e' he' hex => h e' (List.mem_cons_of_mem _ he') hex)]
      by_cases hex : expired now e.2
      · have hne : p ≠ e.2.filepath :=
          Ne.symm (h e (List.mem_cons_self _ _) hex)
        rw [if_pos hex]
        exact alGet_remove_ne fs e.2.filepath p hne
      · rw [if_neg hex]

theorem foldl_reap_removes (now : Int) :
    ∀ (store : Metadata) (fs : FS), ∀ e ∈ store, expired now e.2 = true →
      fsRead (store.foldl (fun acc e =>
        if expired now e.2 then fsRemove acc e.2.filepath else acc) fs)
        e.2.filepath = none := by
  intro store
  induction store with
  | nil => intro fs e he; simp at he
  | cons hd rest ih =>
      intro fs e he hex
      rcases List.mem_cons.mp he with h1 | h1
      · subst h1
        rw [List.foldl_cons, if_pos hex]
        exact foldl_reap_preserves_none now rest _ _
          (alGet_remove_self fs e.2.filepath)
      · rw [List.foldl_cons]
        exact ih _ e h1 hex

/-! ### Decimal-rendering lemmas -/

theorem decDigitsAux_zero (fuel : Nat) : decDigitsAux fuel 0 = [] := by
  cases fuel <;> rfl

theorem decDigitsAux_pos (f n : Nat) (hn : 0 < n) :
    decDigitsAux (f + 1) n = n % 10 :: decDigitsAux f (n / 10) := by
  cases n with
  | zero => omega
  | succ m => rfl

theorem decDigits1 (fuel n : Nat) (h1 : 1 ≤ n) (h9 : n ≤ 9)
    (hf : n ≤ fuel) : decDigitsAux fuel n = [n] := by
  obtain ⟨f, rfl⟩ : ∃ f, fuel = f + 1 := ⟨fuel - 1, by omega⟩
  rw [decDigitsAux_pos _ _ (by omega)]
  have h10 : n / 10 = 0 := by omega
  have hm : n % 10 = n := by omega
  rw [h10, hm, decDigitsAux_zero]

theorem decDigits2 (fuel n : Nat) (h1 : 10 ≤ n) (h9 : n ≤ 99)
    (hf : n ≤ fuel) : decDigitsAux fuel n = [n % 10, n / 10] := by
  obtain ⟨f, rfl⟩ : ∃ f, fuel = f + 1 := ⟨fuel - 1, by omega⟩
  rw [decDigitsAux_pos _ _ (by omega)]
  rw [decDigits1 f (n / 10) (by omega) (by omega) (by omega)]

theorem decDigits3 (fuel n : Nat) (h1 : 100 ≤ n) (h9 : n ≤ 999)
    (hf : n ≤ fuel) :
    decDigitsAux fuel n = [n % 10, n / 10 % 10, n / 100] := by
  obtain ⟨f, rfl⟩ : ∃ f, fuel = f + 1 := ⟨fuel - 1, by omega⟩
  rw [decDigitsAux_pos _ _ (by omega)]
  rw [decDigits2 f (n / 10) (by omega) (by omega) (by omega)]
  have : n / 10 / 10 = n / 100 := by omega
  rw [this]

theorem decDigits4 (fuel n : Nat) (h1 : 1000 ≤ n) (h9 : n ≤ 9999)
    (hf : n ≤ fuel) :
    decDigitsAux fuel n = [n % 10, n / 10 % 10, n / 100 % 10, n / 1000] := by
  obtain ⟨f, rfl⟩ : ∃ f, fuel = f + 1 := ⟨fuel - 1, by omega⟩
  rw [decDigitsAux_pos _ _ (by omega)]
  rw [decDigits3 f (n / 10) (by omega) (by omega) (by omega)]
  have e1 : n / 10 / 10 = n / 100 := by omega
  have e2 : n / 10 % 10 = n / 10 % 10 := rfl
  have e3 : n / 10 / 100 = n / 1000 := by omega
  rw [e1, e3]

theorem natToString_four (n : Nat) (h1 : 1000 ≤ n) (h2 : n ≤ 9999) :
    natToString n = String.mk [Nat.digitChar (n / 1000),
      Nat.digitChar (n / 100 % 10), Nat.digitChar (n / 10 % 10),
      Nat.digitChar (n % 10)] := by
  rw [natToString, if_neg (by omega)]
  rw [decDigits4 n n h1 h2 le_rfl]
  rfl

theorem natToString_length (n : Nat) (h1 : 1000 ≤ n) (h2 : n ≤ 9999) :
    (natToString n).length = 4 := by
  rw [natToString_four n h1 h2]
  rfl

theorem natToString_no_leading_zero (n : Nat) (h1 : 1000 ≤ n)
    (h2 : n ≤ 9999) : (natToString n).data.head? ≠ some '0' := by
  rw [natToString_four n h1 h2]
  have hq1 : 1 ≤ n / 1000 := by omega
  have hq9 : n / 1000 ≤ 9 := by omega
  intro hc
  have hd : Nat.digitChar (n / 1000) = '0' := by
    simpa [String.mk] using hc
  have hne : ∀ q : Nat, 1 ≤ q → q ≤ 9 → Nat.digitChar q ≠ '0' := by
    intro q hql hqr
    interval_cases q <;> decide
  exact hne (n / 1000) hq1 hq9 hd

/-! ### PIN-allocator lemmas -/

theorem generate_pin_mem_free (store : Metadata) :
    ∀ (draws : List Nat) (p : String), generate_pin store draws = some p →
      ∃ d ∈ draws, p = natToString d ∧ alGet store p = none := by
  intro draws
  induction draws with
  | nil => intro p h; simp [generate_pin] at h
  | cons d rest ih =>
      intro p h
      by_cases hfree : (alGet store (natToString d)).isNone = true
      · simp only [generate_pin, if_pos hfree] at h
        obtain rfl : natToString d = p := Option.some.inj h
        exact ⟨d, List.mem_cons_self _ _, rfl,
          Option.isNone_iff_eq_none.mp hfree⟩
      · simp only [generate_pin, if_neg hfree] at h
        obtain ⟨d', hd', hp, hfree'⟩ := ih p h
        exact ⟨d', List.mem_cons_of_mem _ hd', hp, hfree'⟩

theorem fullStore_hit (d : Nat) (h1 : 1000 ≤ d) (h2 : d ≤ 9999) :
    (alGet fullStore (natToString d)).isNone = false := by
  have hmem : (natToString d, sampleRec) ∈ fullStore := by
    apply List.mem_map.mpr
    refine ⟨d - 1000, ?_, ?_⟩
    · simp only [List.mem_range]; omega
    · rw [show 1000 + (d - 1000) = d from by omega]
  cases hget : alGet fullStore (natToString d) with
  | some v => rfl
  | none =>
      exact absurd rfl (forall_ne_of_alGet_eq_none hget _ hmem)

/-! ### Reaper metadata lemma -/

theorem cleanup_store_eq (store : Metadata) (fs : FS) (now : Int)
    (hnd : (store.map Prod.fst).Nodup) :
    (cleanup_old_files store fs now).2.1
      = store.filter (fun e => !(expired now e.2)) := by
  show ((store.filter (fun e => expired now e.2)).map (fun e => e.1)).foldl
      (fun acc p => alRemove acc p) store = _
  rw [alRemove_foldl]
  apply List.filter_congr
  intro e he
  congr 1
  by_cases hex : expired now e.2 = true
  · rw [hex]
    exact contains_eq_true_iff.mpr
      (List.mem_map.mpr ⟨e, List.mem_filter.mpr ⟨he, hex⟩, rfl⟩)
  · have hex' : expired now e.2 = false := by simpa using hex
    rw [hex']
    by_contra hc
    have hc' : ((store.filter (fun e => expired now e.2)).map
        (fun e => e.1)).contains e.1 = true := by
      cases hvc : ((store.filter (fun e => expired now e.2)).map
          (fun e => e.1)).contains e.1
      · exact absurd hvc hc
      · rfl
    obtain ⟨e', he', hkey⟩ := List.mem_map.mp (contains_eq_true_iff.mp hc')
    have hmem' := List.mem_filter.mp he'
    have : e' = e :=
      List.inj_on_of_nodup_map hnd hmem'.1 he hkey
    rw [this] at hmem'
    exact absurd hmem'.2 (by simp [hex'])

/-! ## Claim theorems -/

/-- C1: for every upload - any byte content, including the empty list -
publishing it via `save_file_with_pin` and then fetching the same PIN on
the download path returns exactly the uploaded bytes: the download tab
serves `content` with the stored filename and type. -/
theorem c1_roundtrip (fs : FS) (store : Metadata) (pin name : String)
    (content : Bytes) (size : Nat) (ftype : String) (now : Int) :
    fetch_by_pin
        (save_file_with_pin fs store pin name content size ftype now .ok).2.1
        (save_file_with_pin fs store pin name content size ftype now .ok).1
        pin
      = (.served content name ftype,
         (save_file_with_pin fs store pin name content size ftype now
           .ok).2.1) := by
  have hstore :
      (save_file_with_pin fs store pin name content size ftype now .ok).2.1
        = alInsert store pin ⟨name, pinFilePath pin name, size, now, ftype⟩ :=
    rfl
  have hfs :
      (save_file_with_pin fs store pin name content size ftype now .ok).1
        = fsWrite fs (pinFilePath pin name) content := rfl
  rw [fetch_by_pin, get_file_by_pin, hstore, hfs, alGet_insert_self]
  show (match fsRead (fsWrite fs (pinFilePath pin name) content)
      (pinFilePath pin name) with
    | some data =>
        (FetchResult.served data name ftype,
          alInsert store pin ⟨name, pinFilePath pin name, size, now, ftype⟩)
    | none =>
        (FetchResult.notFoundOnDisk,
          alRemove (alInsert store pin
            ⟨name, pinFilePath pin name, size, now, ftype⟩) pin)) = _
  rw [show fsRead (fsWrite fs (pinFilePath pin name) content)
      (pinFilePath pin name) = some content from
    alGet_insert_self fs (pinFilePath pin name) content]

/-- C2 counterexample: a record uploaded at time 0 has expired at time
86401 (one second past the 24-hour TTL), yet the download path still
serves its bytes, because neither `get_file_by_pin` nor the download tab
consults the clock. -/
theorem c2_counterexample :
    expired 86401 sampleRec = true ∧
    fetch_by_pin c2store c2fs "1234"
      = (.served [104, 105] "hello.txt" "text/plain", c2store) := by decide

/-- C2 amended: expiry is enforced only by the reaper, not by the lookup
path.  After `cleanup_old_files` runs at a time when a record's age
strictly exceeds 24 hours, a subsequent fetch of that PIN fails with the
invalid-or-expired (NotFound) message. -/
theorem c2_amended (store : Metadata) (fs : FS) (pin : String)
    (rec : FileRecord) (now : Int)
    (hrec : get_file_by_pin store pin = some rec)
    (hexp : expired now rec = true) :
    (fetch_by_pin (cleanup_old_files store fs now).2.1
        (cleanup_old_files store fs now).2.2 pin).1 = .invalidPin := by
  have hmem : (pin, rec) ∈ store := alGet_some_mem hrec
  have hpin : pin ∈ (store.filter (fun e => expired now e.2)).map
      (fun e => e.1) :=
    List.mem_map.mpr ⟨(pin, rec), List.mem_filter.mpr ⟨hmem, hexp⟩, rfl⟩
  have hget : alGet (cleanup_old_files store fs now).2.1 pin = none := by
    show alGet (((store.filter (fun e => expired now e.2)).map
        (fun e => e.1)).foldl (fun acc p => alRemove acc p) store) pin = none
    rw [alRemove_foldl]
    apply alGet_filter_none
    intro e _ hc
    rw [hc, contains_eq_true_iff.mpr hpin]
    rfl
  rw [fetch_by_pin, get_file_by_pin, hget]

/-- C2 witness for the amended claim: the concrete expired record under
PIN `1234` is no longer served once the reaper has run at time 86401. -/
theorem c2_amended_witness :
    (fetch_by_pin (cleanup_old_files c2store c2fs 86401).2.1
        (cleanup_old_files c2store c2fs 86401).2.2 "1234").1 = .invalidPin :=
  c2_amended c2store c2fs "1234" sampleRec 86401 (by decide) (by decide)

/-- C3: the storage path built from PIN `1234` and the caller-supplied
filename `a/../../evil` resolves to `/tmp/evil`, outside the storage root
`/tmp/streamlit_file_transfer`; the raw filename is embedded in the path
with no rejection or sanitization (a plain filename stays inside). -/
theorem c3_traversal_escape :
    withinRoot STORAGE_DIR (pinFilePath "1234" "a/../../evil") = false ∧
    resolvePath (pinFilePath "1234" "a/../../evil") = ["tmp", "evil"] ∧
    withinRoot STORAGE_DIR (pinFilePath "1234" "hello.txt") = true := by
  decide

/-- C4: the racing interleaving in which both uploaders run
`generate_pin` against the same store snapshot before either commits:
both are handed PIN `1000`, and after both saves the store holds a single
record - the second upload has overwritten the first.  The uniqueness
check (app.py 65) and the insertion (app.py 81-90) are not under one
lock: `file_lock` is taken only inside `save_file_metadata`. -/
theorem c4_race_duplicate_pin :
    racePinA = some "1000" ∧ racePinB = some "1000" ∧
    raceStore2
      = [("1000", ⟨"b.txt", pinFilePath "1000" "b.txt", 1, 0,
          "text/plain"⟩)] := by decide

/-- C5: when the `json.dump` inside `save_file_metadata` fails,
`save_file_with_pin` still returns the storage path as success (the
exception is swallowed at app.py 57-58), yet the persisted store does not
contain the record: the failure is silently dropped, and no
StorageUnavailable-style error reaches the caller. -/
theorem c5_silent_save_failure :
    (save_file_with_pin [] [] "1234" "notes.txt" [1, 2, 3] 3 "text/plain" 0
        .ioError).2.2 = Except.ok (pinFilePath "1234" "notes.txt") ∧
    get_file_by_pin
      (save_file_with_pin [] [] "1234" "notes.txt" [1, 2, 3] 3 "text/plain" 0
        .ioError).2.1 "1234" = none :=
  ⟨rfl, by decide⟩

/-- C6: when a PIN's record exists but its blob is missing, the download
path reports not-found-on-disk and evicts the record, so the record is
gone from the store and a second lookup of the same PIN reports
invalid-or-expired - never a phantom success, and the dangling entry does
not persist. -/
theorem c6_self_healing (store : Metadata) (fs : FS) (pin : String)
    (rec : FileRecord) (h1 : get_file_by_pin store pin = some rec)
    (h2 : fsRead fs rec.filepath = none) :
    (fetch_by_pin store fs pin).1 = .notFoundOnDisk ∧
    get_file_by_pin (fetch_by_pin store fs pin).2 pin = none ∧
    (fetch_by_pin (fetch_by_pin store fs pin).2 fs pin).1 = .invalidPin := by
  have hfetch : fetch_by_pin store fs pin
      = (.notFoundOnDisk, alRemove store pin) := by
    rw [fetch_by_pin, h1]
    show (match fsRead fs rec.filepath with
      | some data => (FetchResult.served data rec.filename rec.type, store)
      | none => (FetchResult.notFoundOnDisk, alRemove store pin)) = _
    rw [h2]
  rw [hfetch]
  refine ⟨rfl, alGet_remove_self store pin, ?_⟩
  rw [fetch_by_pin, get_file_by_pin, alGet_remove_self store pin]

/-- C6 witness: PIN `5678` has a record but an empty blob directory; the
fetch evicts it and a second fetch reports invalid-or-expired. -/
theorem c6_witness :
    (fetch_by_pin c6store [] "5678").1 = .notFoundOnDisk ∧
    get_file_by_pin (fetch_by_pin c6store [] "5678").2 "5678" = none ∧
    (fetch_by_pin (fetch_by_pin c6store [] "5678").2 [] "5678").1
      = .invalidPin :=
  c6_self_healing c6store [] "5678" c6rec (by decide) (by decide)

/-- C7 counterexample: on a store in which every PIN `1000`-`9999` is
already a key, `generate_pin` never returns, however many fair draws
`random.randint(1000, 9999)` supplies - there is no bounded-attempt
AllocationExhausted failure in the code, the loop runs forever. -/
theorem c7_counterexample : loopsForever fullStore := by
  intro draws h
  induction draws with
  | nil => rfl
  | cons d rest ih =>
      have hd := h d (List.mem_cons_self _ _)
      have hfalse : (alGet fullStore (natToString d)).isNone = false :=
        fullStore_hit d hd.1 hd.2
      simp only [generate_pin, hfalse, Bool.false_eq_true, if_false]
      exact ih (fun d' hd' => h d' (List.mem_cons_of_mem _ hd'))

/-- C7 amended: `generate_pin` terminates with a free PIN whenever its
draw sequence reaches a PIN that is not a key of the store (with a fair
RNG this happens with probability 1 whenever a free PIN exists); when the
drawable keyspace is exhausted it never returns. -/
theorem c7_amended (store : Metadata) (draws : List Nat)
    (h : ∃ d ∈ draws, alGet store (natToString d) = none) :
    ∃ p, generate_pin store draws = some p ∧ alGet store p = none := by
  induction draws with
  | nil => obtain ⟨d, hd, _⟩ := h; simp at hd
  | cons d rest ih =>
      by_cases hfree : (alGet store (natToString d)).isNone = true
      · refine ⟨natToString d, ?_, Option.isNone_iff_eq_none.mp hfree⟩
        simp only [generate_pin, if_pos hfree]
      · obtain ⟨d', hd', hfree'⟩ := h
        rcases List.mem_cons.mp hd' with h1 | h1
        · subst h1
          exact absurd (Option.isNone_iff_eq_none.mpr hfree') hfree
        · obtain ⟨p, hp, hpf⟩ := ih ⟨d', h1, hfree'⟩
          refine ⟨p, ?_, hpf⟩
          simp only [generate_pin, if_neg hfree]
          exact hp

/-- C7 witness for the amended claim: on the empty store a single draw of
1000 immediately yields the free PIN `1000`. -/
theorem c7_amended_witness :
    generate_pin [] [1000] = some "1000" ∧
    alGet ([] : Metadata) "1000" = none := by
  obtain ⟨p, hp, hpf⟩ := c7_amended [] [1000] ⟨1000, by decide, by decide⟩
  have hd : generate_pin ([] : Metadata) [1000] = some "1000" := by decide
  rw [hd] at hp
  injection hp with hp'
  rw [← hp'] at hpf
  exact ⟨hd, hpf⟩

/-- C8: on a store with unique keys (the dict invariant),
`cleanup_old_files` returns exactly the number of records strictly older
than 24 hours, leaves exactly the non-expired records (in order, fields
unchanged), and removes every expired record's blob from the blob
directory, best-effort. -/
theorem c8_reap_exact (store : Metadata) (fs : FS) (now : Int)
    (hnd : (store.map Prod.fst).Nodup) :
    (cleanup_old_files store fs now).1
        = (store.filter (fun e => expired now e.2)).length ∧
    (cleanup_old_files store fs now).2.1
        = store.filter (fun e => !(expired now e.2)) ∧
    (∀ e ∈ store, expired now e.2 = true →
      fsRead (cleanup_old_files store fs now).2.2 e.2.filepath = none) := by
  refine ⟨?_, cleanup_store_eq store fs now hnd, ?_⟩
  · show ((store.filter (fun e => expired now e.2)).map
      (fun e => e.1)).length = _
    rw [List.length_map]
  · intro e he hex
    show fsRead (store.foldl (fun acc e =>
      if expired now e.2 then fsRemove acc e.2.filepath else acc) fs)
      e.2.filepath = none
    exact foldl_reap_removes now store fs e he hex

/-- C8 witness: at time 50000 the store holding the fresh record `1234`
and the expired record `2222` is reaped down to exactly the fresh record,
with count 1. -/
theorem c8_witness :
    (cleanup_old_files c8store c8fs 50000).1 = 1 ∧
    (cleanup_old_files c8store c8fs 50000).2.1 = [("1234", sampleRec)] := by
  have h := c8_reap_exact c8store c8fs 50000 (by decide)
  refine ⟨?_, ?_⟩
  · rw [h.1]; decide
  · rw [h.2.1]; decide

/-- C9: whenever `generate_pin` returns (its draws being in
`randint(1000, 9999)`'s range), the returned PIN is the decimal rendering
of a number between 1000 and 9999, is not a key of the loaded metadata,
has exactly 4 characters, and does not start with `0` - so the leading-
zero codes `0000`-`0999` are never allocated and the effective keyspace
is 9000. -/
theorem c9_pin_properties (store : Metadata) (draws : List Nat)
    (hr : ∀ d ∈ draws, 1000 ≤ d ∧ d ≤ 9999) (p : String)
    (hp : generate_pin store draws = some p) :
    (∃ n, 1000 ≤ n ∧ n ≤ 9999 ∧ p = natToString n) ∧
    alGet store p = none ∧ p.length = 4 ∧ p.data.head? ≠ some '0' := by
  obtain ⟨d, hd, hpd, hfree⟩ := generate_pin_mem_free store draws p hp
  have hb := hr d hd
  subst hpd
  exact ⟨⟨d, hb.1, hb.2, rfl⟩, hfree, natToString_length d hb.1 hb.2,
    natToString_no_leading_zero d hb.1 hb.2⟩

/-- C9 witness: with PIN `1000` taken and draws 1000 then 1001, the
allocator returns the free, 4-character, non-zero-leading PIN `1001`. -/
theorem c9_witness :
    generate_pin c9store [1000, 1001] = some "1001" ∧
    alGet c9store "1001" = none ∧ ("1001" : String).length = 4 ∧
    ("1001" : String).data.head? ≠ some '0' := by
  have h := c9_pin_properties c9store [1000, 1001] (by decide) "1001"
    (by decide)
  exact ⟨by decide, h.2.1, h.2.2.1, h.2.2.2⟩

/-- C10: a record aged 24 hours or less (strictly: not older than 86400
seconds) survives `cleanup_old_files` unchanged - same key and fields -
its lookup still succeeds, and its blob is untouched; `halias` states
that no expired record aliases its blob path, which holds for all states
the code builds since distinct 4-digit PINs give distinct path prefixes. -/
theorem c10_nonexpired_untouched (store : Metadata) (fs : FS) (now : Int)
    (pin : String) (rec : FileRecord)
    (hnd : (store.map Prod.fst).Nodup)
    (hmem : (pin, rec) ∈ store)
    (hfresh : expired now rec = false)
    (halias : ∀ e ∈ store, expired now e.2 = true →
      e.2.filepath ≠ rec.filepath) :
    (pin, rec) ∈ (cleanup_old_files store fs now).2.1 ∧
    get_file_by_pin (cleanup_old_files store fs now).2.1 pin = some rec ∧
    fsRead (cleanup_old_files store fs now).2.2 rec.filepath
      = fsRead fs rec.filepath := by
  have hstore := cleanup_store_eq store fs now hnd
  have hmem' : (pin, rec) ∈ store.filter (fun e => !(expired now e.2)) :=
    List.mem_filter.mpr ⟨hmem, by simp [hfresh]⟩
  refine ⟨hstore ▸ hmem', ?_, ?_⟩
  · rw [hstore]
    apply alGet_nodup_mem _ hmem'
    exact hnd.sublist ((List.filter_sublist store).map Prod.fst)
  · show fsRead (store.foldl (fun acc e =>
      if expired now e.2 then fsRemove acc e.2.filepath else acc) fs)
      rec.filepath = fsRead fs rec.filepath
    exact foldl_reap_frame now store fs rec.filepath halias

/-- C10 witness: at time 50000 the fresh record `1234` (aged 50000 s of
86400 s) survives the reap that removes `2222`, and its blob still reads
back. -/
theorem c10_witness :
    get_file_by_pin (cleanup_old_files c8store c8fs 50000).2.1 "1234"
      = some sampleRec ∧
    fsRead (cleanup_old_files c8store c8fs 50000).2.2 sampleRec.filepath
      = some [104, 105] := by
  have h := c10_nonexpired_untouched c8store c8fs 50000 "1234" sampleRec
    (by decide) (by decide) (by decide) (by decide)
  refine ⟨h.2.1, ?_⟩
  rw [h.2.2]
  decide

end FileTran
